import Mathlib

/-!
Verification development for `cartography/selection/selection_utils.py`.

The module persists per-epoch model outputs as line-delimited record files
(`<output_dir>/training_dynamics/dynamics_epoch_<N>.jsonl`, likewise
`eval_dynamics`) and merges them back into a per-instance history.

Modelling choices (shallow embedding):
- A per-kind subdirectory (`training_dynamics` or `eval_dynamics`) is a
  listing `Dir` of (file name, file content) pairs; every entry is a regular
  file, so `os.listdir` + `os.path.isfile` counting is the listing length.
  Path joining with the parent `output_dir`/`model_dir`, `os.makedirs`, and
  logging are not modelled; the `Dir` argument of each function is the
  per-kind subdirectory itself.
- File names are an inductive type: `FName.epochFile n` stands for
  `dynamics_epoch_<n>.jsonl` (the decimal rendering is injective), and
  `FName.other s` stands for any other file name.
- One `.jsonl` line is a `Record` with the identifier field `guid`, the
  single scores field `logits_epoch_<logitsEpoch>` (its epoch tag is the
  `logitsEpoch` component), and the label field `gold`.  The readers'
  `id_field` parameter is fixed to its default `"guid"`; identifiers are
  modelled as strings (Python slicing `[:-1]` is `String.dropRight 1`).
  Score values are `Rat` in place of floats.
- `pd.DataFrame` construction raises on unequal column lengths, so the
  writers return `Option Dir` (`none` models the raised error).
- Python dicts preserve insertion order, so the merged history is an
  insertion-ordered association list `DynMap`; a failed `assert` or a
  missing-key access in the readers is `none`.
- The readers' `burn_out: int = None` parameter is `Option Nat`; Python's
  `if burn_out:` is falsy both for `None` and for `0`, which the embedding
  reproduces.
-/

/-- A file name inside a per-kind dynamics subdirectory: either the epoch
file `dynamics_epoch_<n>.jsonl` or some unrelated file. -/
inductive FName where
  | epochFile : Nat → FName
  | other : String → FName
deriving DecidableEq

/-- One line of an epoch file: `{"guid": ..., "logits_epoch_<logitsEpoch>":
logits, "gold": ...}`. -/
structure Record where
  guid : String
  logitsEpoch : Nat
  logits : List Rat
  gold : Int
deriving DecidableEq

/-- The per-instance value stored by the readers: `{"gold": ..., "logits":
[...]}`. -/
structure Entry where
  gold : Int
  logits : List (List Rat)
deriving DecidableEq

/-- A per-kind subdirectory: the listing of its regular files with their
parsed contents. -/
abbrev Dir := List (FName × List Record)

/-- The merged history: an insertion-ordered map from instance key to its
entry (a Python dict). -/
abbrev DynMap := List (String × Entry)

/-- `os.path.exists` / reading a file of the subdirectory: first entry with
the given name, if any. -/
def Dir.lookup : Dir → FName → Option (List Record)
  | [], _ => none
  | (n, c) :: rest, name => if n = name then some c else Dir.lookup rest name

/-- `to_json`: overwrite the named file if present, otherwise create it. -/
def Dir.write : Dir → FName → List Record → Dir
  | [], name, content => [(name, content)]
  | (n, c) :: rest, name, content =>
      if n = name then (name, content) :: rest else (n, c) :: Dir.write rest name content

/-- The rows of `pd.DataFrame({"guid": ids, f"logits_epoch_{epoch}": logits,
"gold": golds})`, one `Record` per position. -/
def mkRecords (epoch : Nat) : List String → List (List Rat) → List Int → List Record
  | i :: ids, l :: ls, g :: gs =>
      { guid := i, logitsEpoch := epoch, logits := l, gold := g } :: mkRecords epoch ids ls gs
  | _, _, _ => []

/-- `log_training_dynamics`: build the epoch's records; if the epoch file is
absent write them as the whole file, otherwise read the existing records,
concatenate the new ones after them and overwrite the file.  `none` models
the `pd.DataFrame` error on unequal column lengths. -/
def log_training_dynamics (output_dir : Dir) (epoch : Nat) (train_ids : List String)
    (train_logits : List (List Rat)) (train_golds : List Int) : Option Dir :=
  if train_ids.length = train_logits.length ∧ train_logits.length = train_golds.length then
    let td_df := mkRecords epoch train_ids train_logits train_golds
    match Dir.lookup output_dir (FName.epochFile epoch) with
    | none => some (Dir.write output_dir (FName.epochFile epoch) td_df)
    | some f => some (Dir.write output_dir (FName.epochFile epoch) (f ++ td_df))
  else none

/-- `log_eval_dynamics`: same code as `log_training_dynamics`, targeting the
`eval_dynamics` subdirectory. -/
def log_eval_dynamics (output_dir : Dir) (epoch : Nat) (eval_ids : List String)
    (eval_logits : List (List Rat)) (eval_golds : List Int) : Option Dir :=
  if eval_ids.length = eval_logits.length ∧ eval_logits.length = eval_golds.length then
    let td_df := mkRecords epoch eval_ids eval_logits eval_golds
    match Dir.lookup output_dir (FName.epochFile epoch) with
    | none => some (Dir.write output_dir (FName.epochFile epoch) td_df)
    | some f => some (Dir.write output_dir (FName.epochFile epoch) (f ++ td_df))
  else none

/-- The instance key of a record:
`record[id_field] if not strip_last else record[id_field][:-1]`. -/
def keyOf (strip_last : Bool) (r : Record) : String :=
  if strip_last then r.guid.dropRight 1 else r.guid

/-- Dict lookup `m[guid]` / membership `guid in m`. -/
def DynMap.lookupKey : DynMap → String → Option Entry
  | [], _ => none
  | (k, e) :: rest, g => if k = g then some e else DynMap.lookupKey rest g

/-- `m[guid]["logits"].append(l)`: append one score-vector to the entry of
the given key (the map built by the readers has at most one entry per key). -/
def DynMap.appendLogits : DynMap → String → List Rat → DynMap
  | [], _, _ => []
  | (k, e) :: rest, g, l =>
      if k = g then (k, { gold := e.gold, logits := e.logits ++ [l] }) :: rest
      else (k, e) :: DynMap.appendLogits rest g l

/-- The readers' per-line body: compute the key; on first encounter `assert
epoch_num == 0` and initialize the entry with the record's gold and `[]`;
then append `record[f"logits_epoch_{epoch_num}"]` (a missing-key access when
the record's scores field carries a different epoch tag).  `none` models a
failed assertion or a missing-key error. -/
def processRecord (epoch_num : Nat) (strip_last : Bool) (m : DynMap) (r : Record) :
    Option DynMap :=
  let guid := keyOf strip_last r
  match DynMap.lookupKey m guid with
  | some _ =>
      if r.logitsEpoch = epoch_num then some (DynMap.appendLogits m guid r.logits) else none
  | none =>
      if epoch_num = 0 then
        if r.logitsEpoch = epoch_num then
          some (DynMap.appendLogits (m ++ [(guid, { gold := r.gold, logits := [] })])
            guid r.logits)
        else none
      else none

/-- The readers' inner loop: process every line of one epoch file in order. -/
def processFile (epoch_num : Nat) (strip_last : Bool) : DynMap → List Record → Option DynMap
  | m, [] => some m
  | m, r :: rest =>
    match processRecord epoch_num strip_last m r with
    | none => none
    | some m1 => processFile epoch_num strip_last m1 rest

/-- `num_epochs`: the count of regular files in the subdirectory, replaced by
`burn_out` only when `burn_out` is truthy (not `None` and not `0`). -/
def numEpochsRead (td_dir : Dir) (burn_out : Option Nat) : Nat :=
  match burn_out with
  | none => td_dir.length
  | some b => if b = 0 then td_dir.length else b

/-- The readers' outer loop over epoch numbers: `assert
os.path.exists(epoch_file)` then process the file's lines. -/
def readLoop (td_dir : Dir) (strip_last : Bool) : DynMap → List Nat → Option DynMap
  | m, [] => some m
  | m, epoch_num :: rest =>
    match Dir.lookup td_dir (FName.epochFile epoch_num) with
    | none => none
    | some recs =>
      match processFile epoch_num strip_last m recs with
      | none => none
      | some m1 => readLoop td_dir strip_last m1 rest

/-- `read_training_dynamics`: iterate epochs `0 .. num_epochs - 1` in
increasing order over the `training_dynamics` subdirectory, merging each
epoch file into the history. -/
def read_training_dynamics (td_dir : Dir) (strip_last : Bool) (burn_out : Option Nat) :
    Option DynMap :=
  readLoop td_dir strip_last [] (List.range (numEpochsRead td_dir burn_out))

/-- `read_eval_dynamics`: same code as `read_training_dynamics`, over the
`eval_dynamics` subdirectory. -/
def read_eval_dynamics (td_dir : Dir) (strip_last : Bool) (burn_out : Option Nat) :
    Option DynMap :=
  readLoop td_dir strip_last [] (List.range (numEpochsRead td_dir burn_out))

/-- Specification helper: the score-vectors of the records of one file whose
key is `g`, in file order. -/
def vecsFor (strip_last : Bool) (g : String) : List Record → List (List Rat)
  | [] => []
  | r :: rest =>
      if keyOf strip_last r = g then r.logits :: vecsFor strip_last g rest
      else vecsFor strip_last g rest

/-- Specification helper: the first record of a file whose key is `g`. -/
def firstFor (strip_last : Bool) (g : String) : List Record → Option Record
  | [] => none
  | r :: rest => if keyOf strip_last r = g then some r else firstFor strip_last g rest

/-- Specification helper: the effect of merging one whole epoch file on the
entry of key `g` (gold from the first record if the key is new, score-vectors
appended in file order). -/
def mergeSpec (strip_last : Bool) (g : String) (old : Option Entry) (recs : List Record) :
    Option Entry :=
  match old with
  | some e => some { gold := e.gold, logits := e.logits ++ vecsFor strip_last g recs }
  | none =>
      match firstFor strip_last g recs with
      | none => none
      | some r0 => some { gold := r0.gold, logits := vecsFor strip_last g recs }

/-- Specification helper: the entry of key `g` after merging epoch files
`0 .. n-1`, starting from `old`. -/
def mergedFrom (strip_last : Bool) (g : String) (files : Nat → List Record) :
    Option Entry → Nat → Option Entry
  | old, 0 => old
  | old, n + 1 => mergeSpec strip_last g (mergedFrom strip_last g files old n) (files n)

/-- Specification helper: the entry of key `g` after merging epoch files
`0 .. n-1` into an empty history. -/
def mergedEntry (strip_last : Bool) (g : String) (files : Nat → List Record) (n : Nat) :
    Option Entry :=
  mergedFrom strip_last g files none n

/-- A subdirectory holding exactly the epoch files `0 .. n-1`, file `j`
holding `files j`. -/
def contiguousDir (files : Nat → List Record) : Nat → Dir
  | 0 => []
  | n + 1 => contiguousDir files n ++ [(FName.epochFile n, files n)]

/-- The history expected from reading back one freshly written epoch-0 file:
each id maps to its gold and the one-element score-vector list, in write
order. -/
def expectedMap : List String → List (List Rat) → List Int → DynMap
  | i :: ids, l :: ls, g :: gs => (i, { gold := g, logits := [l] }) :: expectedMap ids ls gs
  | _, _, _ => []

/-- Drop the last character of a record's identifier. -/
def stripRec (r : Record) : Record :=
  { r with guid := r.guid.dropRight 1 }

/-- Apply `stripRec` to every record of every file of a subdirectory. -/
def stripDir : Dir → Dir
  | [] => []
  | (n, c) :: rest => (n, c.map stripRec) :: stripDir rest

/-- The epoch-indexed list `[v 0, ..., v (n-1)]`. -/
def epochVecs (v : Nat → List Rat) : Nat → List (List Rat)
  | 0 => []
  | n + 1 => epochVecs v n ++ [v n]

/-- All score-vectors recorded for key `g` across epoch files `0 .. n-1`, in
reading order. -/
def totalVecs (strip_last : Bool) (g : String) (files : Nat → List Record) :
    Nat → List (List Rat)
  | 0 => []
  | n + 1 => totalVecs strip_last g files n ++ vecsFor strip_last g (files n)

/-- The number of records with key `g` across epoch files `0 .. n-1`. -/
def totalCount (strip_last : Bool) (g : String) (files : Nat → List Record) : Nat → Nat
  | 0 => 0
  | n + 1 => totalCount strip_last g files n + (vecsFor strip_last g (files n)).length

/-- Shorthand to build a concrete record. -/
def mkR (g : String) (e : Nat) (l : List Rat) (gd : Int) : Record :=
  { guid := g, logitsEpoch := e, logits := l, gold := gd }

theorem lookupKey_append_ne (m : DynMap) (k : String) (e : Entry) (g : String) (h : k ≠ g) :
    DynMap.lookupKey (m ++ [(k, e)]) g = DynMap.lookupKey m g := by
  induction m with
  | nil => simp [DynMap.lookupKey, h]
  | cons p rest ih =>
      obtain ⟨k', e'⟩ := p
      by_cases hk : k' = g
      · simp [DynMap.lookupKey, hk]
      · simp [DynMap.lookupKey, hk, ih]

theorem lookupKey_append_self (m : DynMap) (k : String) (e : Entry)
    (h : DynMap.lookupKey m k = none) :
    DynMap.lookupKey (m ++ [(k, e)]) k = some e := by
  induction m with
  | nil => simp [DynMap.lookupKey]
  | cons p rest ih =>
      obtain ⟨k', e'⟩ := p
      by_cases hk : k' = k
      · simp [DynMap.lookupKey, hk] at h
      · simp only [List.cons_append, DynMap.lookupKey, if_neg hk] at h ⊢
        exact ih h

theorem appendLogits_not_mem (m : DynMap) (g : String) (l : List Rat)
    (h : DynMap.lookupKey m g = none) : DynMap.appendLogits m g l = m := by
  induction m with
  | nil => rfl
  | cons p rest ih =>
      obtain ⟨k, e⟩ := p
      by_cases hk : k = g
      · simp [DynMap.lookupKey, hk] at h
      · simp only [DynMap.lookupKey, if_neg hk] at h
        simp only [DynMap.appendLogits, if_neg hk]
        rw [ih h]

theorem appendLogits_append_fresh (m : DynMap) (g : String) (e : Entry) (l : List Rat)
    (h : DynMap.lookupKey m g = none) :
    DynMap.appendLogits (m ++ [(g, e)]) g l
      = m ++ [(g, { gold := e.gold, logits := e.logits ++ [l] })] := by
  induction m with
  | nil => simp [DynMap.appendLogits]
  | cons p rest ih =>
      obtain ⟨k, e'⟩ := p
      by_cases hk : k = g
      · simp [DynMap.lookupKey, hk] at h
      · simp only [DynMap.lookupKey, if_neg hk] at h
        simp only [List.cons_append, DynMap.appendLogits, if_neg hk]
        have hih := ih h
        simp only [List.append_eq] at hih ⊢
        rw [hih]

theorem lookupKey_appendLogits_self (m : DynMap) (g : String) (e : Entry) (l : List Rat)
    (h : DynMap.lookupKey m g = some e) :
    DynMap.lookupKey (DynMap.appendLogits m g l) g
      = some { gold := e.gold, logits := e.logits ++ [l] } := by
  induction m with
  | nil => simp [DynMap.lookupKey] at h
  | cons p rest ih =>
      obtain ⟨k, e'⟩ := p
      by_cases hk : k = g
      · simp only [DynMap.lookupKey, if_pos hk] at h
        obtain rfl : e' = e := Option.some.inj h
        simp [DynMap.appendLogits, hk, DynMap.lookupKey]
      · simp only [DynMap.lookupKey, if_neg hk] at h
        simp only [DynMap.appendLogits, if_neg hk, DynMap.lookupKey]
        exact ih h

theorem lookupKey_appendLogits_ne (m : DynMap) (g g' : String) (l : List Rat) (h : g' ≠ g) :
    DynMap.lookupKey (DynMap.appendLogits m g l) g' = DynMap.lookupKey m g' := by
  induction m with
  | nil => rfl
  | cons p rest ih =>
      obtain ⟨k, e⟩ := p
      by_cases hk : k = g
      · subst hk
        simp [DynMap.appendLogits, DynMap.lookupKey, Ne.symm h]
      · simp only [DynMap.appendLogits, if_neg hk, DynMap.lookupKey]
        rw [ih]

theorem processRecord_lookupKey_ne (j : Nat) (s : Bool) (m m1 : DynMap) (r : Record)
    (h : processRecord j s m r = some m1) (g : String) (hg : keyOf s r ≠ g) :
    DynMap.lookupKey m1 g = DynMap.lookupKey m g := by
  cases hm : DynMap.lookupKey m (keyOf s r) with
  | some e =>
      simp only [processRecord, hm] at h
      by_cases ht : r.logitsEpoch = j
      · rw [if_pos ht] at h
        obtain rfl := Option.some.inj h
        exact lookupKey_appendLogits_ne m (keyOf s r) g r.logits (Ne.symm hg)
      · rw [if_neg ht] at h; cases h
  | none =>
      simp only [processRecord, hm] at h
      by_cases h0 : j = 0
      · by_cases ht : r.logitsEpoch = j
        · rw [if_pos h0, if_pos ht] at h
          obtain rfl := Option.some.inj h
          rw [lookupKey_appendLogits_ne _ _ _ _ (Ne.symm hg)]
          exact lookupKey_append_ne m (keyOf s r) _ g hg
        · rw [if_pos h0, if_neg ht] at h; cases h
      · rw [if_neg h0] at h; cases h

theorem Dir.lookup_write_self (d : Dir) (name : FName) (c : List Record) :
    Dir.lookup (Dir.write d name c) name = some c := by
  induction d with
  | nil => simp [Dir.write, Dir.lookup]
  | cons p rest ih =>
      obtain ⟨n, c'⟩ := p
      by_cases hn : n = name
      · simp [Dir.write, hn, Dir.lookup]
      · simp [Dir.write, hn, Dir.lookup, ih]

theorem Dir.lookup_write_ne (d : Dir) (name name' : FName) (c : List Record)
    (h : name' ≠ name) :
    Dir.lookup (Dir.write d name c) name' = Dir.lookup d name' := by
  induction d with
  | nil => simp [Dir.write, Dir.lookup, Ne.symm h]
  | cons p rest ih =>
      obtain ⟨n, c'⟩ := p
      by_cases hn : n = name
      · have h1 : name ≠ name' := Ne.symm h
        have h2 : n ≠ name' := by rw [hn]; exact h1
        simp [Dir.write, hn, Dir.lookup, h1, h2]
      · simp only [Dir.write, if_neg hn, Dir.lookup]
        rw [ih]

theorem firstFor_eq_none_iff (s : Bool) (g : String) (recs : List Record) :
    firstFor s g recs = none ↔ vecsFor s g recs = [] := by
  induction recs with
  | nil => simp [firstFor, vecsFor]
  | cons r rest ih =>
      by_cases hk : keyOf s r = g
      · simp [firstFor, vecsFor, hk]
      · simp [firstFor, vecsFor, hk, ih]

theorem mergeSpec_nil (s : Bool) (g : String) (old : Option Entry) :
    mergeSpec s g old [] = old := by
  cases old with
  | none => rfl
  | some e => simp [mergeSpec, vecsFor]

theorem mergeSpec_cons_ne (s : Bool) (g : String) (old : Option Entry) (r : Record)
    (rest : List Record) (hk : keyOf s r ≠ g) :
    mergeSpec s g old (r :: rest) = mergeSpec s g old rest := by
  cases old <;> simp [mergeSpec, vecsFor, firstFor, hk]

theorem processFile_lookup (j : Nat) (s : Bool) :
    ∀ (recs : List Record) (m m' : DynMap),
      processFile j s m recs = some m' →
      ∀ g, DynMap.lookupKey m' g = mergeSpec s g (DynMap.lookupKey m g) recs := by
  intro recs
  induction recs with
  | nil =>
      intro m m' h g
      obtain rfl : m = m' := Option.some.inj h
      rw [mergeSpec_nil]
  | cons r rest ih =>
      intro m m' h g
      cases hp : processRecord j s m r with
      | none => simp only [processFile, hp] at h; exact Option.noConfusion h
      | some m1 =>
          simp only [processFile, hp] at h
          have hrec := ih m1 m' h g
          by_cases hk : keyOf s r = g
          · subst hk
            cases hm : DynMap.lookupKey m (keyOf s r) with
            | some e =>
                simp only [processRecord, hm] at hp
                by_cases ht : r.logitsEpoch = j
                · rw [if_pos ht] at hp
                  obtain rfl := Option.some.inj hp
                  rw [lookupKey_appendLogits_self m _ e r.logits hm] at hrec
                  rw [hrec]
                  simp [mergeSpec, vecsFor, List.append_assoc]
                · rw [if_neg ht] at hp; cases hp
            | none =>
                simp only [processRecord, hm] at hp
                by_cases h0 : j = 0
                · by_cases ht : r.logitsEpoch = j
                  · rw [if_pos h0, if_pos ht] at hp
                    obtain rfl := Option.some.inj hp
                    rw [appendLogits_append_fresh m _ _ r.logits hm] at hrec
                    rw [lookupKey_append_self m _ _ hm] at hrec
                    rw [hrec]
                    simp [mergeSpec, vecsFor, firstFor]
                  · rw [if_pos h0, if_neg ht] at hp; cases hp
                · rw [if_neg h0] at hp; cases hp
          · rw [processRecord_lookupKey_ne j s m m1 r hp g hk] at hrec
            rw [hrec, mergeSpec_cons_ne s g _ r rest hk]

theorem readLoop_append_none (d : Dir) (s : Bool) (l2 : List Nat) :
    ∀ (l1 : List Nat) (m : DynMap), readLoop d s m l1 = none →
      readLoop d s m (l1 ++ l2) = none := by
  intro l1
  induction l1 with
  | nil => intro m h; exact Option.noConfusion h
  | cons j t ih =>
      intro m h
      cases hl : Dir.lookup d (FName.epochFile j) with
      | none => simp only [List.cons_append, readLoop, hl]
      | some recs =>
          simp only [readLoop, hl] at h
          simp only [List.cons_append, readLoop, hl]
          cases hf : processFile j s m recs with
          | none => simp
          | some m1 =>
              rw [hf] at h
              simpa using ih m1 h

theorem readLoop_append_some (d : Dir) (s : Bool) (l2 : List Nat) :
    ∀ (l1 : List Nat) (m m1 : DynMap), readLoop d s m l1 = some m1 →
      readLoop d s m (l1 ++ l2) = readLoop d s m1 l2 := by
  intro l1
  induction l1 with
  | nil =>
      intro m m1 h
      obtain rfl : m = m1 := Option.some.inj h
      rfl
  | cons j t ih =>
      intro m m1 h
      cases hl : Dir.lookup d (FName.epochFile j) with
      | none =>
          simp only [readLoop, hl] at h
          exact Option.noConfusion h
      | some recs =>
          simp only [readLoop, hl] at h
          simp only [List.cons_append, readLoop, hl]
          cases hf : processFile j s m recs with
          | none =>
              rw [hf] at h
              exact Option.noConfusion h
          | some m2 =>
              rw [hf] at h
              simpa using ih m2 m1 h

theorem readLoop_range_lookup (d : Dir) (s : Bool) (files : Nat → List Record) :
    ∀ (n : Nat) (m0 m : DynMap),
      (∀ j, j < n → Dir.lookup d (FName.epochFile j) = some (files j)) →
      readLoop d s m0 (List.range n) = some m →
      ∀ g, DynMap.lookupKey m g = mergedFrom s g files (DynMap.lookupKey m0 g) n := by
  intro n
  induction n with
  | zero =>
      intro m0 m _ h g
      obtain rfl := Option.some.inj h
      rfl
  | succ n ih =>
      intro m0 m hlook h g
      rw [List.range_succ] at h
      cases hpre : readLoop d s m0 (List.range n) with
      | none =>
          rw [readLoop_append_none d s [n] (List.range n) m0 hpre] at h
          exact Option.noConfusion h
      | some m1 =>
          rw [readLoop_append_some d s [n] (List.range n) m0 m1 hpre] at h
          have hl : Dir.lookup d (FName.epochFile n) = some (files n) :=
            hlook n (Nat.lt_succ_self n)
          simp only [readLoop, hl] at h
          cases hf : processFile n s m1 (files n) with
          | none => rw [hf] at h; cases h
          | some m2 =>
              rw [hf] at h
              obtain rfl : m2 = m := Option.some.inj h
              have hfl := processFile_lookup n s (files n) m1 m2 hf g
              have hih := ih m0 m1 (fun j hj => hlook j (Nat.lt_succ_of_lt hj)) hpre g
              simp only [mergedFrom]
              rw [← hih]
              exact hfl

theorem Dir.lookup_append (d1 d2 : Dir) (name : FName) :
    Dir.lookup (d1 ++ d2) name
      = match Dir.lookup d1 name with
        | some c => some c
        | none => Dir.lookup d2 name := by
  induction d1 with
  | nil => simp [Dir.lookup]
  | cons p rest ih =>
      obtain ⟨n, c⟩ := p
      by_cases hn : n = name
      · simp [Dir.lookup, hn]
      · simp [Dir.lookup, hn, ih]

theorem contiguousDir_length (files : Nat → List Record) :
    ∀ n, (contiguousDir files n).length = n := by
  intro n
  induction n with
  | zero => rfl
  | succ n ih => simp [contiguousDir, ih]

theorem contiguousDir_lookup_ge (files : Nat → List Record) :
    ∀ n j, n ≤ j → Dir.lookup (contiguousDir files n) (FName.epochFile j) = none := by
  intro n
  induction n with
  | zero => intro j _; rfl
  | succ n ih =>
      intro j hj
      rw [contiguousDir, Dir.lookup_append, ih j (Nat.le_of_succ_le hj)]
      have hne : FName.epochFile n ≠ FName.epochFile j := by
        intro hcontra
        injection hcontra with h'
        omega
      simp [Dir.lookup, hne]

theorem contiguousDir_lookup_lt (files : Nat → List Record) :
    ∀ n j, j < n → Dir.lookup (contiguousDir files n) (FName.epochFile j) = some (files j) := by
  intro n
  induction n with
  | zero => intro j hj; exact absurd hj (Nat.not_lt_zero j)
  | succ n ih =>
      intro j hj
      rw [contiguousDir, Dir.lookup_append]
      rcases Nat.lt_succ_iff_lt_or_eq.mp hj with hlt | heq
      · rw [ih j hlt]
      · subst heq
        rw [contiguousDir_lookup_ge files j j (Nat.le_refl j)]
        simp [Dir.lookup]

theorem range_split (a : Nat) : ∀ b, a ≤ b → ∃ t, List.range b = List.range a ++ t := by
  intro b
  induction b with
  | zero =>
      intro h
      obtain rfl := Nat.le_zero.mp h
      exact ⟨[], by simp⟩
  | succ b ih =>
      intro h
      by_cases ha : a = b + 1
      · subst ha
        exact ⟨[], by simp⟩
      · obtain ⟨t, ht⟩ := ih (by omega)
        exact ⟨t ++ [b], by rw [List.range_succ, ht, List.append_assoc]⟩

theorem read_eval_eq_read_training : read_eval_dynamics = read_training_dynamics := rfl

theorem log_eval_eq_log_training : log_eval_dynamics = log_training_dynamics := rfl

theorem epochVecs_length (v : Nat → List Rat) : ∀ n, (epochVecs v n).length = n := by
  intro n
  induction n with
  | zero => rfl
  | succ n ih => simp [epochVecs, ih]

theorem epochVecs_getElem (v : Nat → List Rat) :
    ∀ n j, j < n → (epochVecs v n)[j]? = some (v j) := by
  intro n
  induction n with
  | zero => intro j hj; exact absurd hj (Nat.not_lt_zero j)
  | succ n ih =>
      intro j hj
      rcases Nat.lt_succ_iff_lt_or_eq.mp hj with hlt | heq
      · rw [epochVecs, List.getElem?_append,
          if_pos (by rw [epochVecs_length]; exact hlt), ih j hlt]
      · subst heq
        rw [epochVecs, List.getElem?_append,
          if_neg (by rw [epochVecs_length]; omega)]
        simp [epochVecs_length]

theorem mergedEntry_gold (s : Bool) (g : String) (files : Nat → List Record) (r0 : Record)
    (h0 : firstFor s g (files 0) = some r0) :
    ∀ n, ∃ L, mergedEntry s g files (n + 1) = some { gold := r0.gold, logits := L } := by
  intro n
  induction n with
  | zero => exact ⟨vecsFor s g (files 0), by simp [mergedEntry, mergedFrom, mergeSpec, h0]⟩
  | succ n ih =>
      obtain ⟨L, hL⟩ := ih
      refine ⟨L ++ vecsFor s g (files (n + 1)), ?_⟩
      simp only [mergedEntry, mergedFrom] at hL ⊢
      rw [hL]
      simp [mergeSpec]

theorem mergedEntry_once (s : Bool) (g : String) (files : Nat → List Record)
    (v : Nat → List Rat) :
    ∀ n, (∀ j, j < n + 1 → vecsFor s g (files j) = [v j]) →
      ∃ gd, mergedEntry s g files (n + 1)
        = some { gold := gd, logits := epochVecs v (n + 1) } := by
  intro n
  induction n with
  | zero =>
      intro hv
      have h0 : vecsFor s g (files 0) = [v 0] := hv 0 (by omega)
      cases hf : firstFor s g (files 0) with
      | none =>
          rw [firstFor_eq_none_iff, h0] at hf
          exact absurd hf (by simp)
      | some r0 =>
          refine ⟨r0.gold, ?_⟩
          simp [mergedEntry, mergedFrom, mergeSpec, hf, h0, epochVecs]
  | succ n ih =>
      intro hv
      obtain ⟨gd, hgd⟩ := ih (fun j hj => hv j (by omega))
      refine ⟨gd, ?_⟩
      simp only [mergedEntry, mergedFrom] at hgd ⊢
      rw [hgd]
      simp [mergeSpec, hv (n + 1) (by omega), epochVecs]

theorem mergedEntry_none_firstFor (s : Bool) (g : String) (files : Nat → List Record) :
    ∀ n, mergedEntry s g files n = none →
      ∀ j, j < n → firstFor s g (files j) = none := by
  intro n
  induction n with
  | zero => intro _ j hj; exact absurd hj (Nat.not_lt_zero j)
  | succ n ih =>
      intro h j hj
      simp only [mergedEntry, mergedFrom] at h
      cases hold : mergedFrom s g files none n with
      | some e => rw [hold] at h; simp [mergeSpec] at h
      | none =>
          rw [hold] at h
          cases hf : firstFor s g (files n) with
          | some r0 => rw [mergeSpec, hf] at h; exact Option.noConfusion h
          | none =>
              rcases Nat.lt_succ_iff_lt_or_eq.mp hj with hlt | heq
              · exact ih hold j hlt
              · subst heq; exact hf

theorem totalVecs_nil (s : Bool) (g : String) (files : Nat → List Record) :
    ∀ n, (∀ j, j < n → vecsFor s g (files j) = []) → totalVecs s g files n = [] := by
  intro n
  induction n with
  | zero => intro _; rfl
  | succ n ih =>
      intro h
      rw [totalVecs, ih (fun j hj => h j (by omega)), h n (by omega)]
      rfl

theorem mergedEntry_logits (s : Bool) (g : String) (files : Nat → List Record) :
    ∀ n e, mergedEntry s g files n = some e → e.logits = totalVecs s g files n := by
  intro n
  induction n with
  | zero => intro e h; exact Option.noConfusion h
  | succ n ih =>
      intro e h
      simp only [mergedEntry, mergedFrom] at h
      cases hold : mergedFrom s g files none n with
      | some e' =>
          rw [hold] at h
          rw [mergeSpec] at h
          obtain rfl := (Option.some.inj h).symm
          rw [totalVecs]
          rw [← ih e' hold]
      | none =>
          rw [hold] at h
          cases hf : firstFor s g (files n) with
          | none => rw [mergeSpec, hf] at h; exact Option.noConfusion h
          | some r0 =>
              rw [mergeSpec, hf] at h
              obtain rfl := (Option.some.inj h).symm
              have hnil : totalVecs s g files n = [] := by
                apply totalVecs_nil
                intro j hj
                rw [← firstFor_eq_none_iff s g (files j)]
                exact mergedEntry_none_firstFor s g files n hold j hj
              rw [totalVecs, hnil]
              rfl

theorem totalVecs_length (s : Bool) (g : String) (files : Nat → List Record) :
    ∀ n, (totalVecs s g files n).length = totalCount s g files n := by
  intro n
  induction n with
  | zero => rfl
  | succ n ih => simp [totalVecs, totalCount, ih]

theorem processFile_fail_first (j : Nat) (s : Bool) (g : String) (hj : j ≠ 0) :
    ∀ (recs : List Record) (m : DynMap) (r : Record),
      DynMap.lookupKey m g = none → firstFor s g recs = some r →
      processFile j s m recs = none := by
  intro recs
  induction recs with
  | nil => intro m r _ hfirst; exact Option.noConfusion hfirst
  | cons r' rest ih =>
      intro m r hmem hfirst
      by_cases hk : keyOf s r' = g
      · have hm' : DynMap.lookupKey m (keyOf s r') = none := by rw [hk]; exact hmem
        simp [processFile, processRecord, hm', hj]
      · rw [firstFor, if_neg hk] at hfirst
        cases hp : processRecord j s m r' with
        | none => simp [processFile, hp]
        | some m1 =>
            simp only [processFile, hp]
            exact ih m1 r
              (by rw [processRecord_lookupKey_ne j s m m1 r' hp g hk]; exact hmem) hfirst

theorem readLoop_absent (d : Dir) (s : Bool) (g : String) :
    ∀ (i : Nat) (m0 m : DynMap),
      (∀ i', i' < i → ∀ recs, Dir.lookup d (FName.epochFile i') = some recs →
        firstFor s g recs = none) →
      DynMap.lookupKey m0 g = none →
      readLoop d s m0 (List.range i) = some m →
      DynMap.lookupKey m g = none := by
  intro i
  induction i with
  | zero =>
      intro m0 m _ h0 h
      obtain rfl : m0 = m := Option.some.inj h
      exact h0
  | succ i ih =>
      intro m0 m hnone h0 h
      rw [List.range_succ] at h
      cases hpre : readLoop d s m0 (List.range i) with
      | none =>
          rw [readLoop_append_none d s [i] (List.range i) m0 hpre] at h
          exact Option.noConfusion h
      | some m1 =>
          rw [readLoop_append_some d s [i] (List.range i) m0 m1 hpre] at h
          have hm1 := ih m0 m1 (fun i' hi' => hnone i' (by omega)) h0 hpre
          cases hl : Dir.lookup d (FName.epochFile i) with
          | none =>
              simp only [readLoop, hl] at h
              exact Option.noConfusion h
          | some recs =>
              simp only [readLoop, hl] at h
              cases hf : processFile i s m1 recs with
              | none => rw [hf] at h; exact Option.noConfusion h
              | some m2 =>
                  rw [hf] at h
                  obtain rfl : m2 = m := Option.some.inj h
                  rw [processFile_lookup i s recs m1 m2 hf g, hm1, mergeSpec,
                    hnone i (by omega) recs hl]

theorem readLoop_missing (d : Dir) (s : Bool) :
    ∀ (l : List Nat) (n : Nat) (m : DynMap), n ∈ l →
      Dir.lookup d (FName.epochFile n) = none → readLoop d s m l = none := by
  intro l
  induction l with
  | nil => intro n m hn _; exact absurd hn (List.not_mem_nil n)
  | cons j t ih =>
      intro n m hn hmiss
      by_cases hj : j = n
      · subst hj
        simp only [readLoop, hmiss]
      · cases hl : Dir.lookup d (FName.epochFile j) with
        | none => simp only [readLoop, hl]
        | some recs =>
            simp only [readLoop, hl]
            cases hf : processFile j s m recs with
            | none => simp
            | some m1 =>
                have hnt : n ∈ t := by
                  rcases List.mem_cons.mp hn with h | h
                  · exact absurd h.symm hj
                  · exact h
                simpa using ih n m1 hnt hmiss

theorem processFile_fresh :
    ∀ (ids : List String) (ls : List (List Rat)) (gs : List Int) (m : DynMap),
      ids.Nodup → ids.length = ls.length → ls.length = gs.length →
      (∀ i ∈ ids, DynMap.lookupKey m i = none) →
      processFile 0 false m (mkRecords 0 ids ls gs) = some (m ++ expectedMap ids ls gs) := by
  intro ids
  induction ids with
  | nil =>
      intro ls gs m _ _ _ _
      simp [mkRecords, expectedMap, processFile]
  | cons i ids ih =>
      intro ls gs m hnd h1 h2 hfresh
      cases ls with
      | nil => simp at h1
      | cons l ls =>
        cases gs with
        | nil => simp at h2
        | cons gd gs =>
            have hmi : DynMap.lookupKey m i = none := hfresh i (List.mem_cons_self i ids)
            have hpr : processRecord 0 false m
                { guid := i, logitsEpoch := 0, logits := l, gold := gd }
                = some (m ++ [(i, { gold := gd, logits := [l] })]) := by
              simp only [processRecord, keyOf]
              simp only [Bool.false_eq_true, if_false, hmi]
              simp [appendLogits_append_fresh m i { gold := gd, logits := [] } l hmi]
            simp only [mkRecords, processFile, hpr]
            have hih := ih ls gs (m ++ [(i, { gold := gd, logits := [l] })])
              (List.nodup_cons.mp hnd).2 (by simpa using h1) (by simpa using h2) ?_
            · rw [hih, expectedMap, List.append_assoc]
              rfl
            · intro i' hi'
              have hne : i ≠ i' := fun hh => (List.nodup_cons.mp hnd).1 (hh ▸ hi')
              rw [lookupKey_append_ne m i _ i' hne]
              exact hfresh i' (List.mem_cons_of_mem i hi')

theorem processRecord_strip (j : Nat) (m : DynMap) (r : Record) :
    processRecord j true m r = processRecord j false m (stripRec r) := rfl

theorem processFile_strip (j : Nat) :
    ∀ (recs : List Record) (m : DynMap),
      processFile j true m recs = processFile j false m (recs.map stripRec) := by
  intro recs
  induction recs with
  | nil => intro m; rfl
  | cons r rest ih =>
      intro m
      simp only [List.map_cons, processFile, processRecord_strip j m r]
      cases processRecord j false m (stripRec r) with
      | none => rfl
      | some m1 => exact ih m1

theorem stripDir_lookup : ∀ (d : Dir) (name : FName),
    Dir.lookup (stripDir d) name = Option.map (List.map stripRec) (Dir.lookup d name) := by
  intro d
  induction d with
  | nil => intro name; rfl
  | cons p rest ih =>
      intro name
      obtain ⟨n, c⟩ := p
      by_cases hn : n = name
      · simp [stripDir, Dir.lookup, hn]
      · simp [stripDir, Dir.lookup, hn, ih]

theorem stripDir_length : ∀ d : Dir, (stripDir d).length = d.length := by
  intro d
  induction d with
  | nil => rfl
  | cons p rest ih => simp [stripDir, ih]

theorem readLoop_strip (d : Dir) :
    ∀ (l : List Nat) (m : DynMap),
      readLoop d true m l = readLoop (stripDir d) false m l := by
  intro l
  induction l with
  | nil => intro m; rfl
  | cons j t ih =>
      intro m
      cases hl : Dir.lookup d (FName.epochFile j) with
      | none =>
          have hl' : Dir.lookup (stripDir d) (FName.epochFile j) = none := by
            rw [stripDir_lookup, hl]; rfl
          simp only [readLoop, hl, hl']
      | some recs =>
          have hl' : Dir.lookup (stripDir d) (FName.epochFile j)
              = some (recs.map stripRec) := by
            rw [stripDir_lookup, hl]; rfl
          simp only [readLoop, hl, hl', ← processFile_strip j recs m]
          cases processFile j true m recs with
          | none => rfl
          | some m1 => exact ih m1

theorem numEpochsRead_strip (d : Dir) (b : Option Nat) :
    numEpochsRead (stripDir d) b = numEpochsRead d b := by
  cases b with
  | none => simp [numEpochsRead, stripDir_length]
  | some b' => simp [numEpochsRead, stripDir_length]

theorem readLoop_congr (d1 d2 : Dir) (s : Bool) :
    ∀ (l : List Nat) (m : DynMap),
      (∀ j, j ∈ l → Dir.lookup d1 (FName.epochFile j) = Dir.lookup d2 (FName.epochFile j)) →
      readLoop d1 s m l = readLoop d2 s m l := by
  intro l
  induction l with
  | nil => intro m _; rfl
  | cons j t ih =>
      intro m hsame
      have hj := hsame j (List.mem_cons_self j t)
      cases hl : Dir.lookup d1 (FName.epochFile j) with
      | none =>
          have hl2 : Dir.lookup d2 (FName.epochFile j) = none := by rw [← hj]; exact hl
          simp only [readLoop, hl, hl2]
      | some recs =>
          have hl2 : Dir.lookup d2 (FName.epochFile j) = some recs := by rw [← hj]; exact hl
          simp only [readLoop, hl, hl2]
          cases processFile j s m recs with
          | none => rfl
          | some m1 => exact ih m1 (fun j' hj' => hsame j' (List.mem_cons_of_mem j hj'))

/-- C1 counterexample: writing for epoch 1 into an empty directory (with a
duplicated id) produces only the epoch-1 file, and reading the directory back
fails (the reader looks for the epoch-0 file), so no mapping matching the
inputs is returned. -/
theorem roundtrip_nonzero_epoch_counterexample :
    log_training_dynamics [] 1 ["a", "a"] [[1], [2]] [0, 1]
      = some [(FName.epochFile 1, [mkR "a" 1 [1] 0, mkR "a" 1 [2] 1])]
    ∧ read_training_dynamics [(FName.epochFile 1, [mkR "a" 1 [1] 0, mkR "a" 1 [2] 1])]
        false none = none := ⟨by decide, by decide⟩

/-- C1 (amended): writing equal-length sequences with pairwise-distinct ids
for epoch 0 into an empty directory and then reading back with no cutoff and
no stripping yields exactly the mapping sending each id to its gold label and
the one-element logits sequence holding its score-vector, in write order. -/
theorem roundtrip_epoch0 (ids : List String) (ls : List (List Rat)) (gs : List Int)
    (d' : Dir) (hnd : ids.Nodup) (h1 : ids.length = ls.length) (h2 : ls.length = gs.length)
    (hlog : log_training_dynamics [] 0 ids ls gs = some d') :
    read_training_dynamics d' false none = some (expectedMap ids ls gs) := by
  simp only [log_training_dynamics] at hlog
  rw [if_pos ⟨h1, h2⟩] at hlog
  have hd' : [(FName.epochFile 0, mkRecords 0 ids ls gs)] = d' := Option.some.inj hlog
  subst hd'
  have hl : Dir.lookup [(FName.epochFile 0, mkRecords 0 ids ls gs)] (FName.epochFile 0)
      = some (mkRecords 0 ids ls gs) := by simp [Dir.lookup]
  have hfresh : ∀ i ∈ ids, DynMap.lookupKey ([] : DynMap) i = none := fun i _ => rfl
  have hpf := processFile_fresh ids ls gs [] hnd h1 h2 hfresh
  show readLoop [(FName.epochFile 0, mkRecords 0 ids ls gs)] false [] [0]
      = some (expectedMap ids ls gs)
  simp only [readLoop, hl, hpf]
  rfl

/-- C1 witness: the amended round-trip at a concrete input. -/
theorem roundtrip_epoch0_witness :
    read_training_dynamics [(FName.epochFile 0, mkRecords 0 ["a", "b"] [[1], [2]] [0, 1])]
      false none = some (expectedMap ["a", "b"] [[1], [2]] [0, 1]) :=
  roundtrip_epoch0 ["a", "b"] [[1], [2]] [0, 1]
    [(FName.epochFile 0, mkRecords 0 ["a", "b"] [[1], [2]] [0, 1])]
    (by decide) (by decide) (by decide) (by decide)

/-- C2 counterexample: a directory with exactly one epoch file (k = 0) in
which one instance appears twice: the read succeeds and that instance's
logits sequence has length 2, not k + 1 = 1. -/
theorem multiEpoch_duplicate_counterexample :
    read_training_dynamics
      (contiguousDir (fun _ => [mkR "a" 0 [1] 0, mkR "a" 0 [2] 1]) 1) false none
      = some [("a", { gold := 0, logits := [[1], [2]] })]
    ∧ ([[(1 : Rat)], [(2 : Rat)]] : List (List Rat)).length ≠ 0 + 1 :=
  ⟨by decide, by decide⟩

/-- C2 (amended): for every instance present exactly once in each epoch file
of a directory containing exactly the epoch files 0..k, a successful read
with no cutoff returns a logits sequence of length k + 1 holding, at each
position j, the score-vector recorded at epoch j; for both readers. -/
theorem multiEpoch_merge (k : Nat) (files : Nat → List Record) (s : Bool) (g : String)
    (v : Nat → List Rat) (m : DynMap) :
    (read_training_dynamics (contiguousDir files (k + 1)) s none = some m →
      (∀ j, j ≤ k → vecsFor s g (files j) = [v j]) →
      ∃ gd L, DynMap.lookupKey m g = some { gold := gd, logits := L } ∧ L.length = k + 1
        ∧ ∀ j, j ≤ k → L[j]? = some (v j))
    ∧ (read_eval_dynamics (contiguousDir files (k + 1)) s none = some m →
      (∀ j, j ≤ k → vecsFor s g (files j) = [v j]) →
      ∃ gd L, DynMap.lookupKey m g = some { gold := gd, logits := L } ∧ L.length = k + 1
        ∧ ∀ j, j ≤ k → L[j]? = some (v j)) := by
  have main : read_training_dynamics (contiguousDir files (k + 1)) s none = some m →
      (∀ j, j ≤ k → vecsFor s g (files j) = [v j]) →
      ∃ gd L, DynMap.lookupKey m g = some { gold := gd, logits := L } ∧ L.length = k + 1
        ∧ ∀ j, j ≤ k → L[j]? = some (v j) := by
    intro hread hv
    simp only [read_training_dynamics] at hread
    have hlen : numEpochsRead (contiguousDir files (k + 1)) none = k + 1 := by
      simp [numEpochsRead, contiguousDir_length]
    rw [hlen] at hread
    have hlk := readLoop_range_lookup (contiguousDir files (k + 1)) s files (k + 1) [] m
      (fun j hj => contiguousDir_lookup_lt files (k + 1) j hj) hread g
    obtain ⟨gd, hgd⟩ := mergedEntry_once s g files v k (fun j hj => hv j (by omega))
    refine ⟨gd, epochVecs v (k + 1), ?_, epochVecs_length v (k + 1), ?_⟩
    · rw [hlk]; exact hgd
    · intro j hj
      exact epochVecs_getElem v (k + 1) j (by omega)
  exact ⟨main, by rw [read_eval_eq_read_training]; exact main⟩

/-- C2 witness: the amended multi-epoch merge at a concrete input. -/
theorem multiEpoch_merge_witness :
    ∃ gd L, DynMap.lookupKey [("a", { gold := 1, logits := [[1, 2]] })] "a"
        = some { gold := gd, logits := L } ∧ L.length = 0 + 1
      ∧ ∀ j, j ≤ 0 → L[j]? = some ((fun _ => [(1 : Rat), 2]) j) :=
  (multiEpoch_merge 0 (fun _ => [mkR "a" 0 [1, 2] 1]) false "a" (fun _ => [1, 2])
      [("a", { gold := 1, logits := [[1, 2]] })]).1
    (by decide)
    (by
      intro j hj
      have hj0 : j = 0 := Nat.le_zero.mp hj
      subst hj0
      decide)

/-- C3: if the target epoch file exists, a successful write (training or
eval) leaves that file holding exactly the old records followed by the new
ones, and leaves every other file of the subdirectory unchanged. -/
theorem mergeAppend_write (d : Dir) (epoch : Nat) (ids : List String) (ls : List (List Rat))
    (gs : List Int) (old : List Record) (d' : Dir)
    (hold : Dir.lookup d (FName.epochFile epoch) = some old) :
    (log_training_dynamics d epoch ids ls gs = some d' →
      Dir.lookup d' (FName.epochFile epoch) = some (old ++ mkRecords epoch ids ls gs)
      ∧ ∀ name, name ≠ FName.epochFile epoch → Dir.lookup d' name = Dir.lookup d name)
    ∧ (log_eval_dynamics d epoch ids ls gs = some d' →
      Dir.lookup d' (FName.epochFile epoch) = some (old ++ mkRecords epoch ids ls gs)
      ∧ ∀ name, name ≠ FName.epochFile epoch → Dir.lookup d' name = Dir.lookup d name) := by
  have main : log_training_dynamics d epoch ids ls gs = some d' →
      Dir.lookup d' (FName.epochFile epoch) = some (old ++ mkRecords epoch ids ls gs)
      ∧ ∀ name, name ≠ FName.epochFile epoch → Dir.lookup d' name = Dir.lookup d name := by
    intro hlog
    simp only [log_training_dynamics] at hlog
    by_cases hlen : ids.length = ls.length ∧ ls.length = gs.length
    · rw [if_pos hlen, hold] at hlog
      have hd' : Dir.write d (FName.epochFile epoch) (old ++ mkRecords epoch ids ls gs)
          = d' := Option.some.inj hlog
      subst hd'
      exact ⟨Dir.lookup_write_self d (FName.epochFile epoch) _,
        fun name hname => Dir.lookup_write_ne d (FName.epochFile epoch) name _ hname⟩
    · rw [if_neg hlen] at hlog
      exact Option.noConfusion hlog
  exact ⟨main, by rw [log_eval_eq_log_training]; exact main⟩

/-- C3 witness: merge-append at a concrete directory with an existing
epoch-0 file. -/
theorem mergeAppend_write_witness :
    Dir.lookup [(FName.epochFile 0, [mkR "a" 0 [1] 0, mkR "b" 0 [2] 1])] (FName.epochFile 0)
      = some ([mkR "a" 0 [1] 0] ++ mkRecords 0 ["b"] [[2]] [1])
    ∧ ∀ name, name ≠ FName.epochFile 0 →
        Dir.lookup [(FName.epochFile 0, [mkR "a" 0 [1] 0, mkR "b" 0 [2] 1])] name
          = Dir.lookup [(FName.epochFile 0, [mkR "a" 0 [1] 0])] name :=
  (mergeAppend_write [(FName.epochFile 0, [mkR "a" 0 [1] 0])] 0 ["b"] [[2]] [1]
      [mkR "a" 0 [1] 0] [(FName.epochFile 0, [mkR "a" 0 [1] 0, mkR "b" 0 [2] 1])]
      (by decide)).1 (by decide)

/-- C4: if a key's first occurrence among the epoch files read lies in an
epoch file with number greater than 0, both readers fail (the assertion
`epoch_num == 0` on first encounter). -/
theorem firstSeen_nonzero_fails (d : Dir) (s : Bool) (b : Option Nat) (j : Nat) (g : String)
    (fj : List Record) (r : Record)
    (hj : j ≠ 0) (hjlt : j < numEpochsRead d b)
    (hfj : Dir.lookup d (FName.epochFile j) = some fj)
    (hr : firstFor s g fj = some r)
    (hnone : ∀ i, i < j → ∀ recs, Dir.lookup d (FName.epochFile i) = some recs →
      firstFor s g recs = none) :
    read_training_dynamics d s b = none ∧ read_eval_dynamics d s b = none := by
  have main : read_training_dynamics d s b = none := by
    simp only [read_training_dynamics]
    obtain ⟨t, ht⟩ := range_split (j + 1) (numEpochsRead d b) hjlt
    rw [ht]
    have hfail : readLoop d s [] (List.range (j + 1)) = none := by
      rw [List.range_succ]
      cases hpre : readLoop d s [] (List.range j) with
      | none => exact readLoop_append_none d s [j] (List.range j) [] hpre
      | some m1 =>
          rw [readLoop_append_some d s [j] (List.range j) [] m1 hpre]
          have hm1 : DynMap.lookupKey m1 g = none :=
            readLoop_absent d s g j [] m1 hnone rfl hpre
          simp only [readLoop, hfj]
          rw [processFile_fail_first j s g hj fj m1 r hm1 hr]
    exact readLoop_append_none d s t (List.range (j + 1)) [] hfail
  exact ⟨main, by rw [read_eval_eq_read_training]; exact main⟩

/-- C4 witness: a key appearing only from epoch 1 onward makes both readers
fail on a concrete two-epoch directory. -/
theorem firstSeen_nonzero_fails_witness :
    read_training_dynamics (contiguousDir (fun i => if i = 0 then [mkR "a" 0 [1] 0]
        else [mkR "a" 1 [2] 0, mkR "b" 1 [3] 1]) 2) false none = none
    ∧ read_eval_dynamics (contiguousDir (fun i => if i = 0 then [mkR "a" 0 [1] 0]
        else [mkR "a" 1 [2] 0, mkR "b" 1 [3] 1]) 2) false none = none :=
  firstSeen_nonzero_fails
    (contiguousDir (fun i => if i = 0 then [mkR "a" 0 [1] 0]
      else [mkR "a" 1 [2] 0, mkR "b" 1 [3] 1]) 2)
    false none 1 "b" [mkR "a" 1 [2] 0, mkR "b" 1 [3] 1] (mkR "b" 1 [3] 1)
    (by decide) (by decide) (by decide) (by decide)
    (by
      intro i hi recs h
      have hi0 : i = 0 := by omega
      subst hi0
      have hl : Dir.lookup (contiguousDir (fun i => if i = 0 then [mkR "a" 0 [1] 0]
          else [mkR "a" 1 [2] 0, mkR "b" 1 [3] 1]) 2) (FName.epochFile 0)
          = some [mkR "a" 0 [1] 0] := by decide
      rw [hl] at h
      obtain rfl := (Option.some.inj h).symm
      decide)

/-- C5: if the epoch file for some epoch number below the number of epochs
to read is missing, both readers fail. -/
theorem missingEpochFile_fails (d : Dir) (s : Bool) (b : Option Nat) (n : Nat)
    (hn : n < numEpochsRead d b) (hmiss : Dir.lookup d (FName.epochFile n) = none) :
    read_training_dynamics d s b = none ∧ read_eval_dynamics d s b = none := by
  have main : read_training_dynamics d s b = none := by
    simp only [read_training_dynamics]
    exact readLoop_missing d s (List.range (numEpochsRead d b)) n []
      (List.mem_range.mpr hn) hmiss
  exact ⟨main, by rw [read_eval_eq_read_training]; exact main⟩

/-- C5 witness: a directory holding one stray non-epoch file has one epoch to
read but no epoch-0 file, so both readers fail. -/
theorem missingEpochFile_fails_witness :
    read_training_dynamics [(FName.other "stray", [])] false none = none
    ∧ read_eval_dynamics [(FName.other "stray", [])] false none = none :=
  missingEpochFile_fails [(FName.other "stray", [])] false none 0 (by decide) (by decide)

/-- C6 counterexample: with a supplied cutoff of 0 the reader does not read 0
epochs: `if burn_out:` is falsy at 0, so the file count (1) is used and the
returned history has length 1, not 0. -/
theorem burnOut_zero_counterexample :
    read_training_dynamics [(FName.epochFile 0, [mkR "a" 0 [1] 0])] false (some 0)
      = some [("a", { gold := 0, logits := [[1]] })]
    ∧ ([[(1 : Rat)]] : List (List Rat)).length ≠ 0 :=
  ⟨by decide, by decide⟩

/-- C6 (amended): for every nonzero cutoff the number of epochs read is the
cutoff; epoch files at or beyond the cutoff are ignored; a successful read
returns histories of the truncated length; a cutoff of 0 is treated like no
cutoff (the file count is used). -/
theorem burnOut_truncation (b : Nat) (hb : b ≠ 0) :
    (∀ d : Dir, numEpochsRead d (some b) = b)
    ∧ (∀ (d : Dir) (s : Bool) (i : Nat) (recs : List Record), b ≤ i →
        read_training_dynamics (Dir.write d (FName.epochFile i) recs) s (some b)
          = read_training_dynamics d s (some b))
    ∧ (∀ (d : Dir) (s : Bool) (files : Nat → List Record) (g : String) (v : Nat → List Rat)
        (m : DynMap),
        (∀ j, j < b → Dir.lookup d (FName.epochFile j) = some (files j)) →
        read_training_dynamics d s (some b) = some m →
        (∀ j, j < b → vecsFor s g (files j) = [v j]) →
        ∃ gd, DynMap.lookupKey m g = some { gold := gd, logits := epochVecs v b }
          ∧ (epochVecs v b).length = b)
    ∧ (∀ d : Dir, numEpochsRead d (some 0) = numEpochsRead d none) := by
  refine ⟨fun d => by simp [numEpochsRead, hb], ?_, ?_, fun d => by simp [numEpochsRead]⟩
  · intro d s i recs hbi
    simp only [read_training_dynamics]
    have h1 : numEpochsRead (Dir.write d (FName.epochFile i) recs) (some b) = b := by
      simp [numEpochsRead, hb]
    have h2 : numEpochsRead d (some b) = b := by simp [numEpochsRead, hb]
    rw [h1, h2]
    apply readLoop_congr
    intro j hj
    have hjb : j < b := List.mem_range.mp hj
    apply Dir.lookup_write_ne
    intro hcontra
    injection hcontra with h'
    omega
  · intro d s files g v m hlook hread hv
    obtain ⟨b', rfl⟩ : ∃ b', b = b' + 1 := ⟨b - 1, by omega⟩
    simp only [read_training_dynamics] at hread
    have h2 : numEpochsRead d (some (b' + 1)) = b' + 1 := by simp [numEpochsRead]
    rw [h2] at hread
    have hlk := readLoop_range_lookup d s files (b' + 1) [] m hlook hread g
    obtain ⟨gd, hgd⟩ := mergedEntry_once s g files v b' (fun j hj => hv j hj)
    exact ⟨gd, by rw [hlk]; exact hgd, epochVecs_length v (b' + 1)⟩

/-- C6 witness: the amended cutoff behavior at concrete inputs (cutoff 1 on a
two-file directory; a write beyond the cutoff is invisible; a successful read
under cutoff 1 has histories of length 1). -/
theorem burnOut_truncation_witness :
    numEpochsRead [(FName.epochFile 0, [mkR "a" 0 [1] 0]),
        (FName.epochFile 1, [mkR "a" 1 [2] 0])] (some 1) = 1
    ∧ read_training_dynamics (Dir.write [(FName.epochFile 0, [mkR "a" 0 [1] 0])]
        (FName.epochFile 3) []) false (some 1)
      = read_training_dynamics [(FName.epochFile 0, [mkR "a" 0 [1] 0])] false (some 1)
    ∧ (∃ gd, DynMap.lookupKey [("a", { gold := 0, logits := [[1]] })] "a"
        = some { gold := gd, logits := epochVecs (fun _ => [(1 : Rat)]) 1 }
        ∧ (epochVecs (fun _ => [(1 : Rat)]) 1).length = 1) :=
  ⟨(burnOut_truncation 1 (by decide)).1 _,
    (burnOut_truncation 1 (by decide)).2.1 [(FName.epochFile 0, [mkR "a" 0 [1] 0])]
      false 3 [] (by decide),
    (burnOut_truncation 1 (by decide)).2.2.1 [(FName.epochFile 0, [mkR "a" 0 [1] 0])]
      false (fun _ => [mkR "a" 0 [1] 0]) "a" (fun _ => [(1 : Rat)])
      [("a", { gold := 0, logits := [[1]] })]
      (by
        intro j hj
        have hj0 : j = 0 := by omega
        subst hj0
        decide)
      (by decide)
      (by
        intro j hj
        have hj0 : j = 0 := by omega
        subst hj0
        decide)⟩

/-- C7: with no cutoff the number of epochs to read is the count of files in
the subdirectory (for a directory holding exactly the contiguous epoch files
0..k-1 it is k, and each epoch file below the count is found), and an epoch
file missing below that count makes the read fail. -/
theorem epochCount_from_listing :
    (∀ d : Dir, numEpochsRead d none = d.length)
    ∧ (∀ (files : Nat → List Record) (k : Nat),
        numEpochsRead (contiguousDir files k) none = k
        ∧ ∀ j, j < k → Dir.lookup (contiguousDir files k) (FName.epochFile j)
            = some (files j))
    ∧ (∀ (d : Dir) (s : Bool) (i : Nat), i < numEpochsRead d none →
        Dir.lookup d (FName.epochFile i) = none →
        read_training_dynamics d s none = none) := by
  refine ⟨fun d => rfl,
    fun files k => ⟨by simp [numEpochsRead, contiguousDir_length],
      fun j hj => contiguousDir_lookup_lt files k j hj⟩,
    fun d s i hi hmiss => ?_⟩
  simp only [read_training_dynamics]
  exact readLoop_missing d s (List.range (numEpochsRead d none)) i []
    (List.mem_range.mpr hi) hmiss

/-- C7 witness: a directory with one non-epoch file counts one epoch to read,
and the read fails because the epoch-0 file is required but missing. -/
theorem epochCount_from_listing_witness :
    numEpochsRead [(FName.other "stray", [mkR "a" 0 [1] 0])] none = 1
    ∧ read_training_dynamics [(FName.other "stray", [mkR "a" 0 [1] 0])] false none = none :=
  ⟨epochCount_from_listing.1 [(FName.other "stray", [mkR "a" 0 [1] 0])],
    epochCount_from_listing.2.2 [(FName.other "stray", [mkR "a" 0 [1] 0])] false 0
      (by decide) (by decide)⟩

/-- C8: with the strip-last-character flag enabled, both readers behave
exactly as the un-stripped readers on the directory whose record identifiers
all have their final character dropped (each record is merged under the key
`record[id_field][:-1]`); in particular an identifier `"abc1"` is merged
under key `"abc"`. -/
theorem stripLast_truncation :
    (∀ (d : Dir) (b : Option Nat),
      read_training_dynamics d true b = read_training_dynamics (stripDir d) false b)
    ∧ (∀ (d : Dir) (b : Option Nat),
      read_eval_dynamics d true b = read_eval_dynamics (stripDir d) false b)
    ∧ read_training_dynamics [(FName.epochFile 0, [mkR "abc1" 0 [1] 1])] true none
      = some [("abc", { gold := 1, logits := [[1]] })] := by
  have main : ∀ (d : Dir) (b : Option Nat),
      read_training_dynamics d true b = read_training_dynamics (stripDir d) false b := by
    intro d b
    simp only [read_training_dynamics, numEpochsRead_strip]
    exact readLoop_strip d (List.range (numEpochsRead d b)) []
  exact ⟨main, by rw [read_eval_eq_read_training]; exact main, by decide⟩

/-- C9: the gold label stored for a key is the gold field of the first
record with that key in the epoch-0 file; later records' gold fields are
ignored without any consistency check (the concrete conjunct reads a
directory whose epoch-1 file carries a different gold for the same key: the
read succeeds and returns the epoch-0 gold). -/
theorem gold_from_first (k : Nat) (files : Nat → List Record) (s : Bool) (g : String)
    (r0 : Record) (m : DynMap) :
    (read_training_dynamics (contiguousDir files (k + 1)) s none = some m →
      firstFor s g (files 0) = some r0 →
      ∃ L, DynMap.lookupKey m g = some { gold := r0.gold, logits := L })
    ∧ (read_eval_dynamics (contiguousDir files (k + 1)) s none = some m →
      firstFor s g (files 0) = some r0 →
      ∃ L, DynMap.lookupKey m g = some { gold := r0.gold, logits := L })
    ∧ read_training_dynamics (contiguousDir (fun i => if i = 0 then [mkR "a" 0 [1] 0]
        else [mkR "a" 1 [2] 5]) 2) false none
      = some [("a", { gold := 0, logits := [[1], [2]] })] := by
  have main : read_training_dynamics (contiguousDir files (k + 1)) s none = some m →
      firstFor s g (files 0) = some r0 →
      ∃ L, DynMap.lookupKey m g = some { gold := r0.gold, logits := L } := by
    intro hread h0
    simp only [read_training_dynamics] at hread
    have hlen : numEpochsRead (contiguousDir files (k + 1)) none = k + 1 := by
      simp [numEpochsRead, contiguousDir_length]
    rw [hlen] at hread
    have hlk := readLoop_range_lookup (contiguousDir files (k + 1)) s files (k + 1) [] m
      (fun j hj => contiguousDir_lookup_lt files (k + 1) j hj) hread g
    obtain ⟨L, hL⟩ := mergedEntry_gold s g files r0 h0 k
    exact ⟨L, by rw [hlk]; exact hL⟩
  exact ⟨main, by rw [read_eval_eq_read_training]; exact main, by decide⟩

/-- C9 witness: the gold-from-first-encounter conclusion at a concrete
two-epoch directory with conflicting golds. -/
theorem gold_from_first_witness :
    ∃ L, DynMap.lookupKey [("a", { gold := 0, logits := [[1], [2]] })] "a"
      = some { gold := (mkR "a" 0 [1] 0).gold, logits := L } :=
  (gold_from_first 1 (fun i => if i = 0 then [mkR "a" 0 [1] 0] else [mkR "a" 1 [2] 5])
      false "a" (mkR "a" 0 [1] 0) [("a", { gold := 0, logits := [[1], [2]] })]).1
    (by decide) (by decide)

/-- C10: duplicate keys within an epoch file raise no assertion; a returned
entry's logits length equals the total number of records bearing that key
across all epochs read (the concrete conjunct: one epoch file with the same
key twice reads successfully to a history of length 2, exceeding the epoch
file count 1). -/
theorem duplicates_inflate (n : Nat) (files : Nat → List Record) (s : Bool) (g : String)
    (m : DynMap) (e : Entry) :
    (read_training_dynamics (contiguousDir files n) s none = some m →
      DynMap.lookupKey m g = some e →
      e.logits.length = totalCount s g files n)
    ∧ (read_eval_dynamics (contiguousDir files n) s none = some m →
      DynMap.lookupKey m g = some e →
      e.logits.length = totalCount s g files n)
    ∧ (read_training_dynamics (contiguousDir (fun _ => [mkR "a" 0 [1] 0, mkR "a" 0 [2] 7]) 1)
        false none = some [("a", { gold := 0, logits := [[1], [2]] })]
      ∧ totalCount false "a" (fun _ => [mkR "a" 0 [1] 0, mkR "a" 0 [2] 7]) 1 = 2
      ∧ 1 < 2) := by
  have main : read_training_dynamics (contiguousDir files n) s none = some m →
      DynMap.lookupKey m g = some e →
      e.logits.length = totalCount s g files n := by
    intro hread hlk
    simp only [read_training_dynamics] at hread
    have hlen : numEpochsRead (contiguousDir files n) none = n := by
      simp [numEpochsRead, contiguousDir_length]
    rw [hlen] at hread
    have h := readLoop_range_lookup (contiguousDir files n) s files n [] m
      (fun j hj => contiguousDir_lookup_lt files n j hj) hread g
    rw [hlk] at h
    have he := mergedEntry_logits s g files n e h.symm
    rw [he, totalVecs_length]
  exact ⟨main, by rw [read_eval_eq_read_training]; exact main, by decide, by decide, by decide⟩

/-- C10 witness: the logits-length-equals-record-count conclusion at the
concrete duplicate-key directory. -/
theorem duplicates_inflate_witness :
    ({ gold := 0, logits := [[(1 : Rat)], [(2 : Rat)]] } : Entry).logits.length
      = totalCount false "a" (fun _ => [mkR "a" 0 [1] 0, mkR "a" 0 [2] 7]) 1 :=
  (duplicates_inflate 1 (fun _ => [mkR "a" 0 [1] 0, mkR "a" 0 [2] 7]) false "a"
      [("a", { gold := 0, logits := [[1], [2]] })]
      { gold := 0, logits := [[1], [2]] }).1
    (by decide) (by decide)
